import Mathlib

/-!
Shallow embedding of `src/string.rs` (the `ImString` / `ImStr` pair of
null-terminated string types) and proofs about its observable behaviour.

Bytes are modelled as `Nat` (a `u8` value is `< 256`; none of the operations
below perform arithmetic on byte values, only comparison with the terminator
byte `0`, so no wrap-around modelling is needed). A Rust `Vec<u8>` is modelled
as its logical contents (`data`, the bytes in `[0, len)`) together with its
allocation capacity (`cap`).
-/

/-- Model of Rust `Vec<u8>`: the logical contents and the allocation
capacity. Rust maintains `data.length ≤ cap` for every vector it hands out. -/
structure ByteVec where
  data : List Nat
  cap : Nat
deriving Repr, DecidableEq

/-- Amortized growth used by `RawVec` when the current capacity `cap` cannot
hold `needed` bytes: grow to `max (2 * cap) needed`. (Rust additionally
imposes a small minimum capacity on the very first growth; no property proved
below depends on the exact grown value, only on `cap` never shrinking and
staying `≥ length`.) -/
def growTo (cap needed : Nat) : Nat := max (2 * cap) needed

/-- `Vec::push`: appends one byte, growing the allocation when full. -/
def ByteVec.push (v : ByteVec) (b : Nat) : ByteVec :=
  if v.data.length + 1 ≤ v.cap then ⟨v.data ++ [b], v.cap⟩
  else ⟨v.data ++ [b], growTo v.cap (v.data.length + 1)⟩

/-- `Vec::clear`: drops the contents, keeps the allocation. -/
def ByteVec.clear (v : ByteVec) : ByteVec := ⟨[], v.cap⟩

/-- `Vec::reserve`: ensures capacity for `n` more bytes, growing amortized. -/
def ByteVec.reserve (v : ByteVec) (n : Nat) : ByteVec :=
  if v.data.length + n ≤ v.cap then v
  else ⟨v.data, growTo v.cap (v.data.length + n)⟩

/-- `Vec::reserve_exact`: ensures capacity for `n` more bytes, growing to the
exact requested size. -/
def ByteVec.reserve_exact (v : ByteVec) (n : Nat) : ByteVec :=
  if v.data.length + n ≤ v.cap then v
  else ⟨v.data, v.data.length + n⟩

/-- `Vec::extend_from_slice`: reserves room for the slice, then appends it. -/
def ByteVec.extend_from_slice (v : ByteVec) (s : List Nat) : ByteVec :=
  let w := v.reserve s.length
  ⟨w.data ++ s, w.cap⟩

/-- `pub struct ImString(Vec<u8>)` — a growable, implicitly null-terminated
string. `vec` is the single (unnamed) field. -/
structure ImString where
  vec : ByteVec
deriving Repr, DecidableEq

/-- `pub struct ImStr(CStr)` — a null-terminated string slice. `bytes` is the
full inner `CStr` byte slice, including its final byte (for a `CStr` built by
`CStr::from_ptr` the final byte is the first nul found; for one transmuted
from an arbitrary slice it is simply the slice's last byte). -/
structure ImStr where
  bytes : List Nat
deriving Repr, DecidableEq

/-- `CStr::from_ptr` on the start of the byte run `bs`: scans for the first
nul byte and yields the slice up to and including it. Precondition (from
`CStr::from_ptr`'s contract): a nul byte exists in the readable run; a buffer
with no nul byte at all makes the real scan read out of bounds (undefined
behaviour), which this total model cannot represent. -/
def cstrFromPtr (bs : List Nat) : List Nat := bs.takeWhile (· != 0) ++ [0]

/-- `impl Deref for ImString`: `CStr::from_ptr(self.0.as_ptr())`, scanning the
contents for the first nul rather than trusting `self.0.len()`. -/
def ImString.deref (s : ImString) : ImStr := ⟨cstrFromPtr s.vec.data⟩

/-- `ImStr::to_str`: `str::from_utf8_unchecked(self.0.to_bytes())`.
`CStr::to_bytes` returns the inner slice without its final byte. -/
def ImStr.to_str (s : ImStr) : List Nat := s.bytes.dropLast

/-- `ImString::to_str` — method-call on `ImString` resolves through `Deref`
to `ImStr::to_str`. -/
def ImString.to_str (s : ImString) : List Nat := s.deref.to_str

/-- `ImString::from_utf8_unchecked`: pushes a terminator onto the vector. -/
def ImString.from_utf8_unchecked (v : ByteVec) : ImString := ⟨v.push 0⟩

/-- `ImString::new`: converts the argument to a `String` (byte contents `s`,
backing allocation capacity `c`) and calls `from_utf8_unchecked` on its byte
vector. -/
def ImString.new (s : List Nat) (c : Nat) : ImString :=
  ImString.from_utf8_unchecked ⟨s, c⟩

/-- `ImString::with_capacity`: `Vec::with_capacity(capacity + 1)` then
`push(0)`. -/
def ImString.with_capacity (c : Nat) : ImString :=
  ⟨ByteVec.push ⟨[], c + 1⟩ 0⟩

/-- `ImString::from_utf8_with_nul_unchecked`: adopts the vector as-is. -/
def ImString.from_utf8_with_nul_unchecked (v : ByteVec) : ImString := ⟨v⟩

/-- `impl Default for ImString`: `from_utf8_with_nul_unchecked(vec![0])`
(`vec![0]` allocates exactly one byte). -/
def ImString.default : ImString := ⟨⟨[0], 1⟩⟩

/-- `ImString::clear`: `Vec::clear` then `push(b'\0')`. -/
def ImString.clear (s : ImString) : ImString := ⟨s.vec.clear.push 0⟩

/-- `ImString::refresh_len`: `set_len(self.to_str().len())` — recomputes the
logical length by scanning the contents (through `Deref`) for the first nul
and truncates the vector to that length. -/
def ImString.refresh_len (s : ImString) : ImString :=
  ⟨⟨s.vec.data.take s.to_str.length, s.vec.cap⟩⟩

/-- `ImString::push_str`: `refresh_len`, `extend_from_slice(string)`,
`push(b'\0')`. -/
def ImString.push_str (s : ImString) (t : List Nat) : ImString :=
  let r := s.refresh_len
  ⟨(r.vec.extend_from_slice t).push 0⟩

/-- `char::encode_utf8`: the UTF-8 byte sequence of a scalar value. -/
def utf8Encode (c : Nat) : List Nat :=
  if c < 0x80 then [c]
  else if c < 0x800 then [0xC0 + c / 64, 0x80 + c % 64]
  else if c < 0x10000 then
    [0xE0 + c / 4096, 0x80 + c / 64 % 64, 0x80 + c % 64]
  else
    [0xF0 + c / 262144, 0x80 + c / 4096 % 64, 0x80 + c / 64 % 64,
      0x80 + c % 64]

/-- `ImString::push`: encodes the char and delegates to `push_str`. -/
def ImString.push (s : ImString) (c : Nat) : ImString :=
  s.push_str (utf8Encode c)

/-- `ImString::capacity`: `self.0.capacity() - 1` (usize subtraction; every
buffer holding its terminator has `cap ≥ 1`, so no underflow on reachable
buffers). -/
def ImString.capacity (s : ImString) : Nat := s.vec.cap - 1

/-- `ImString::capacity_with_nul`: `self.0.capacity()`. -/
def ImString.capacity_with_nul (s : ImString) : Nat := s.vec.cap

/-- `ImString::reserve`. -/
def ImString.reserve (s : ImString) (n : Nat) : ImString := ⟨s.vec.reserve n⟩

/-- `ImString::reserve_exact`. -/
def ImString.reserve_exact (s : ImString) (n : Nat) : ImString :=
  ⟨s.vec.reserve_exact n⟩

/-- `ImStr::from_utf8_with_nul_unchecked`: transmutes the byte slice to an
`ImStr`; the inner `CStr` slice is the whole input range. -/
def ImStr.from_utf8_with_nul_unchecked (bs : List Nat) : ImStr := ⟨bs⟩

/-- `impl ToOwned for ImStr`: `ImString(self.0.to_owned().into_bytes())`.
`CStr::to_owned` copies the full inner slice into a `CString` (a boxed slice,
so capacity = length), and `CString::into_bytes` pops the final byte off the
resulting vector. -/
def ImStr.to_owned (s : ImStr) : ImString :=
  ⟨⟨s.bytes.dropLast, s.bytes.length⟩⟩

/-- The derived `PartialEq`/`Eq` on `ImString` compares the single `Vec<u8>`
field, i.e. the full logical byte contents (capacity is not compared). -/
def ImString.eqDerived (a b : ImString) : Bool := a.vec.data == b.vec.data

/-- `Ord` on Rust byte slices (and hence on `Vec<u8>`): lexicographic
comparison, element by element (`u8::cmp`: less, equal or greater), with a
strict prefix ordered before its extensions. -/
def lexCompare : List Nat → List Nat → Ordering
  | [], [] => Ordering.eq
  | [], _ :: _ => Ordering.lt
  | _ :: _, [] => Ordering.gt
  | a :: as, b :: bs =>
    if a < b then Ordering.lt
    else if b < a then Ordering.gt
    else lexCompare as bs

/-- The derived `Ord`/`PartialOrd` on `ImString` compares the single
`Vec<u8>` field: lexicographic order on the full contents, terminator and
trailing bytes included (capacity is not compared). -/
def ImString.cmpDerived (a b : ImString) : Ordering :=
  lexCompare a.vec.data b.vec.data

/-- The byte stream the derived `Hash` on `ImString` feeds to the hasher: the
`Vec<u8>` field's full contents (Rust hashes the length followed by every
element, so two `ImString`s feed equal streams iff their vectors are
element-wise equal). -/
def ImString.hashInput (s : ImString) : List Nat := s.vec.data

/-- The byte stream the derived `Hash` on `ImStr` feeds to the hasher: a
function of the inner `CStr` slice. -/
def ImStr.hashInput (s : ImStr) : List Nat := s.bytes

/-- Buffers reachable from the checked constructors by the owning-side
operations (claim C9's closure: `reserve`, `reserve_exact`, append (`push` /
`push_str`) and `clear`). -/
inductive Reached : ImString → Prop
  | new (s : List Nat) (c : Nat) : Reached (ImString.new s c)
  | with_capacity (c : Nat) : Reached (ImString.with_capacity c)
  | default : Reached ImString.default
  | clear {b : ImString} : Reached b → Reached b.clear
  | push_str {b : ImString} (t : List Nat) : Reached b → Reached (b.push_str t)
  | push {b : ImString} (c : Nat) : Reached b → Reached (b.push c)
  | reserve {b : ImString} (n : Nat) : Reached b → Reached (b.reserve n)
  | reserve_exact {b : ImString} (n : Nat) :
      Reached b → Reached (b.reserve_exact n)

/-! Helper lemmas about terminator scanning. -/

theorem zero_not_mem_takeWhile (xs : List Nat) :
    0 ∉ xs.takeWhile (· != 0) := by
  induction xs with
  | nil => simp [List.takeWhile]
  | cons a xs ih =>
    by_cases h : a = 0
    · subst h; simp [List.takeWhile]
    · rw [List.takeWhile_cons_of_pos (by simpa using h)]
      simp only [List.mem_cons, not_or]
      exact ⟨fun e => h e.symm, ih⟩

theorem takeWhile_append_zero (t r : List Nat) (h : 0 ∉ t) :
    (t ++ 0 :: r).takeWhile (· != 0) = t := by
  induction t with
  | nil => simp [List.takeWhile]
  | cons a t ih =>
    simp only [List.mem_cons, not_or] at h
    rw [List.cons_append,
      List.takeWhile_cons_of_pos (by simpa using fun e => h.1 e.symm)]
    rw [ih h.2]

theorem dropLast_append_single (xs : List Nat) (a : Nat) :
    (xs ++ [a]).dropLast = xs := by
  simp

theorem take_takeWhile_length (p : Nat → Bool) (xs : List Nat) :
    xs.take (xs.takeWhile p).length = xs.takeWhile p := by
  induction xs with
  | nil => rfl
  | cons a xs ih =>
    by_cases h : p a
    · rw [List.takeWhile_cons_of_pos h, List.length_cons, List.take_succ_cons,
        ih]
    · rw [List.takeWhile_cons_of_neg h]; rfl

theorem ImString.to_str_eq_takeWhile (b : ImString) :
    b.to_str = b.vec.data.takeWhile (· != 0) := by
  unfold ImString.to_str ImStr.to_str ImString.deref cstrFromPtr
  exact dropLast_append_single _ _

theorem takeWhile_eq_self_of_zero_not_mem (t : List Nat) (h : 0 ∉ t) :
    t.takeWhile (· != 0) = t := by
  induction t with
  | nil => rfl
  | cons a t ih =>
    simp only [List.mem_cons, not_or] at h
    rw [List.takeWhile_cons_of_pos (by simpa using fun e => h.1 e.symm)]
    rw [ih h.2]

theorem lexCompare_eq_iff (xs : List Nat) :
    ∀ ys : List Nat, lexCompare xs ys = Ordering.eq ↔ xs = ys := by
  induction xs with
  | nil =>
    intro ys
    cases ys <;> simp [lexCompare]
  | cons a as ih =>
    intro ys
    cases ys with
    | nil => simp [lexCompare]
    | cons b bs =>
      by_cases h1 : a < b
      · simp only [lexCompare]
        rw [if_pos h1]
        constructor
        · intro h
          exact Ordering.noConfusion h
        · intro h
          injection h with e1 e2
          exact absurd e1 (by omega)
      · by_cases h2 : b < a
        · simp only [lexCompare]
          rw [if_neg h1, if_pos h2]
          constructor
          · intro h
            exact Ordering.noConfusion h
          · intro h
            injection h with e1 e2
            exact absurd e1 (by omega)
        · have hab : a = b := by omega
          subst hab
          simp only [lexCompare]
          rw [if_neg h1, if_neg h2]
          simp [ih bs]

theorem ByteVec.push_data (v : ByteVec) (b : Nat) :
    (v.push b).data = v.data ++ [b] := by
  unfold ByteVec.push
  split <;> rfl

theorem ByteVec.reserve_data (v : ByteVec) (n : Nat) :
    (v.reserve n).data = v.data := by
  unfold ByteVec.reserve
  split <;> rfl

theorem ByteVec.extend_data (v : ByteVec) (s : List Nat) :
    (v.extend_from_slice s).data = v.data ++ s := by
  show (v.reserve s.length).data ++ s = v.data ++ s
  rw [ByteVec.reserve_data]

theorem ImString.refresh_len_data (b : ImString) :
    b.refresh_len.vec.data = b.vec.data.takeWhile (· != 0) := by
  unfold ImString.refresh_len
  rw [ImString.to_str_eq_takeWhile, take_takeWhile_length]

theorem ImString.push_str_data (b : ImString) (t : List Nat) :
    (b.push_str t).vec.data = b.vec.data.takeWhile (· != 0) ++ t ++ [0] := by
  unfold ImString.push_str
  rw [ByteVec.push_data, ByteVec.extend_data, ImString.refresh_len_data,
    List.append_assoc]

/-- Claim C6: an owned buffer whose allocation holds "hello", a terminator at
offset 5, then "world" and another terminator (a foreign writer truncated in
place) reads back as "hello" — not "hello\0world" (the model is total, so no
panic is possible). -/
theorem foreign_truncated_hello_reads_hello :
    (ImString.from_utf8_with_nul_unchecked
        ⟨[104, 101, 108, 108, 111, 0, 119, 111, 114, 108, 100, 0], 12⟩).to_str
      = [104, 101, 108, 108, 111] ∧
    (ImString.from_utf8_with_nul_unchecked
        ⟨[104, 101, 108, 108, 111, 0, 119, 111, 114, 108, 100, 0], 12⟩).to_str
      ≠ [104, 101, 108, 108, 111, 0, 119, 111, 114, 108, 100] := by
  constructor
  · rfl
  · decide

/-- Claim C1: evaluation of the code at the failing input. Starting from the
reachable buffer `ImString::new("hi")` and taking the view (`Deref`), the
owned copy produced by `ToOwned for ImStr` has byte vector `[104, 105]` —
`CString::into_bytes` pops the final byte, so the copy contains no terminator
byte at all, violating invariant I1. -/
theorem to_owned_drops_terminator :
    ((ImString.new [104, 105] 2).deref.to_owned).vec.data = [104, 105] ∧
    0 ∉ ((ImString.new [104, 105] 2).deref.to_owned).vec.data := by
  decide

/-- Claim C2, counterexample: for the view built by the unchecked constructor
over `[98, 0, 99, 0]` (UTF-8-valid, terminator-containing bytes), the
round-trip view → owned copy → view changes the logical text: `as_text` of
the copy is `[98]` while `as_text` of the original view is `[98, 0, 99]`. -/
theorem view_roundtrip_counterexample :
    ((ImStr.from_utf8_with_nul_unchecked [98, 0, 99, 0]).to_owned).to_str
      ≠ (ImStr.from_utf8_with_nul_unchecked [98, 0, 99, 0]).to_str := by
  decide

/-- Claim C2, amended: for every view whose first terminator byte is the
final byte of its range (the shape every view of an owned buffer has, and the
documented contract of the unchecked constructor), converting the view to an
owned copy and viewing that copy again yields the same logical text. -/
theorem view_roundtrip (t : List Nat) (h : 0 ∉ t) :
    ((ImStr.from_utf8_with_nul_unchecked (t ++ [0])).to_owned).to_str
      = (ImStr.from_utf8_with_nul_unchecked (t ++ [0])).to_str := by
  have h1 : ((ImStr.from_utf8_with_nul_unchecked (t ++ [0])).to_owned).vec.data
      = t := by
    show (t ++ [0]).dropLast = t
    exact dropLast_append_single t 0
  rw [ImString.to_str_eq_takeWhile, h1, takeWhile_eq_self_of_zero_not_mem t h]
  show t = (t ++ [0]).dropLast
  rw [dropLast_append_single]

/-- Claim C2, witness for the amended theorem at the concrete view "h\0". -/
theorem view_roundtrip_witness :
    ((ImStr.from_utf8_with_nul_unchecked ([104] ++ [0])).to_owned).to_str
      = (ImStr.from_utf8_with_nul_unchecked ([104] ++ [0])).to_str :=
  view_roundtrip [104] (by decide)

/-- Claim C3, counterexample: for the view built by the unchecked constructor
over `[97, 0, 98, 0]`, `as_text` returns `[97, 0, 98]` — the whole range minus
its final byte — and not the bytes strictly before the first terminator
(`[97]`); the logical length is 3, not the offset 1 of the first zero. -/
theorem unchecked_view_text_counterexample :
    (ImStr.from_utf8_with_nul_unchecked [97, 0, 98, 0]).to_str = [97, 0, 98] ∧
    (ImStr.from_utf8_with_nul_unchecked [97, 0, 98, 0]).to_str
      ≠ [97, 0, 98, 0].takeWhile (· != 0) := by
  decide

/-- Claim C3, amended: `as_text` returns exactly the bytes strictly before the
first terminator for (a) every view obtained from an owned buffer — `Deref`
scans the contents with `CStr::from_ptr` — and (b) every view built by the
unchecked constructor whose first terminator is the final byte of its range;
a view built from a range with an interior terminator instead yields the
range minus its final byte. -/
theorem view_text_first_terminator (b : ImString) (t : List Nat)
    (_hb : 0 ∈ b.vec.data) (ht : 0 ∉ t) :
    b.to_str = b.vec.data.takeWhile (· != 0) ∧
    (ImStr.from_utf8_with_nul_unchecked (t ++ [0])).to_str
      = (t ++ [0]).takeWhile (· != 0) := by
  refine ⟨ImString.to_str_eq_takeWhile b, ?_⟩
  unfold ImStr.from_utf8_with_nul_unchecked ImStr.to_str
  rw [dropLast_append_single]
  have h0 : t ++ [0] = t ++ 0 :: [] := rfl
  rw [h0, takeWhile_append_zero t [] ht]

/-- Claim C3, witness at the buffer `[104, 0, 120, 0]` (foreign-truncated)
and the literal view "h\0". -/
theorem view_text_first_terminator_witness :
    (ImString.from_utf8_with_nul_unchecked ⟨[104, 0, 120, 0], 4⟩).to_str
        = [104, 0, 120, 0].takeWhile (· != 0) ∧
    (ImStr.from_utf8_with_nul_unchecked ([104] ++ [0])).to_str
        = ([104] ++ [0]).takeWhile (· != 0) :=
  view_text_first_terminator
    (ImString.from_utf8_with_nul_unchecked ⟨[104, 0, 120, 0], 4⟩)
    [104] (by decide) (by decide)

/-- Claim C4, counterexample: appending the one-byte text `"\0"` (valid UTF-8)
to the buffer holding "h" does not make `as_text` equal to the previous text
concatenated with the appended text: the scan stops at the appended
terminator byte, so `as_text` stays `[104]` instead of `[104, 0]`. -/
theorem append_text_equation_counterexample :
    ((ImString.new [104] 1).push_str [0]).to_str
      ≠ (ImString.new [104] 1).to_str ++ [0] := by
  decide

/-- Claim C4, amended: for every buffer `b` containing a terminator and every
text `t`, `push_str` first resynchronizes by scanning from offset 0 for the
first terminator, discards everything from that terminator on, appends `t`'s
bytes and a fresh terminator — so the vector becomes exactly
`(resynchronized prefix) ++ t ++ [0]`; and whenever `t` itself contains no
terminator byte, the resulting `as_text` is the resynchronized previous text
concatenated with `t`. -/
theorem push_str_resync_append (b : ImString) (t : List Nat)
    (_hb : 0 ∈ b.vec.data) :
    (b.push_str t).vec.data = b.vec.data.takeWhile (· != 0) ++ t ++ [0] ∧
    (0 ∉ t → (b.push_str t).to_str = b.to_str ++ t) := by
  refine ⟨ImString.push_str_data b t, fun ht => ?_⟩
  rw [ImString.to_str_eq_takeWhile, ImString.push_str_data,
    ImString.to_str_eq_takeWhile]
  have h0 : b.vec.data.takeWhile (· != 0) ++ t ++ [0]
      = (b.vec.data.takeWhile (· != 0) ++ t) ++ 0 :: [] := by
    rw [List.append_assoc]
  rw [h0, takeWhile_append_zero]
  intro hmem
  rcases List.mem_append.mp hmem with h1 | h2
  · exact zero_not_mem_takeWhile _ h1
  · exact ht h2

/-- Claim C4, witness: appending "i" to the buffer holding "h". -/
theorem push_str_resync_append_witness :
    ((ImString.new [104] 1).push_str [105]).to_str
      = (ImString.new [104] 1).to_str ++ [105] :=
  (push_str_resync_append (ImString.new [104] 1) [105] (by decide)).2
    (by decide)

/-- Claim C5, counterexample: constructing an owned buffer from the one-byte
valid UTF-8 string `"\0"` and reading it back yields the empty text, not the
input, and the logical length is 0, not 1. -/
theorem create_from_counterexample :
    (ImString.new [0] 1).to_str ≠ [0] ∧
    (ImString.new [0] 1).to_str.length ≠ ([0] : List Nat).length := by
  decide

/-- Claim C5, amended: for every valid UTF-8 string `s` that contains no
terminator byte (whatever the backing allocation capacity `c` of the input
`String`), `as_text(create_from(s)) = s` and the resulting buffer's logical
length equals the length of `s`. -/
theorem create_from_roundtrip (s : List Nat) (c : Nat) (h : 0 ∉ s) :
    (ImString.new s c).to_str = s ∧
    (ImString.new s c).to_str.length = s.length := by
  have hd : (ImString.new s c).vec.data = s ++ [0] := by
    unfold ImString.new ImString.from_utf8_unchecked
    exact ByteVec.push_data ⟨s, c⟩ 0
  have ht : (ImString.new s c).to_str = s := by
    rw [ImString.to_str_eq_takeWhile, hd]
    have h0 : s ++ [0] = s ++ 0 :: [] := rfl
    rw [h0, takeWhile_append_zero s [] h]
  exact ⟨ht, by rw [ht]⟩

/-- Claim C5, witness at the string "hi" with a fitted allocation. -/
theorem create_from_roundtrip_witness :
    (ImString.new [104, 105] 2).to_str = [104, 105] :=
  (create_from_roundtrip [104, 105] 2 (by decide)).1

/-- Claim C7: two views obtained from owned buffers (via `Deref`) with equal
logical text are equal as views — and therefore feed the identical byte
stream to the hasher — regardless of the sizes or contents of the backing
allocations: the view only ever holds the scanned prefix up to and including
the first terminator. -/
theorem view_eq_of_text_eq (b1 b2 : ImString) (h : b1.to_str = b2.to_str) :
    b1.deref = b2.deref ∧ b1.deref.hashInput = b2.deref.hashInput := by
  have e : b1.vec.data.takeWhile (· != 0) = b2.vec.data.takeWhile (· != 0) := by
    rw [← ImString.to_str_eq_takeWhile, ← ImString.to_str_eq_takeWhile]
    exact h
  have hv : b1.deref = b2.deref := by
    unfold ImString.deref cstrFromPtr
    rw [e]
  exact ⟨hv, congrArg ImStr.hashInput hv⟩

/-- Claim C7, witness: the buffers `[104, 0]` (capacity 2) and
`[104, 0, 120, 0]` (capacity 17) have equal text "h", and their views are
equal. -/
theorem view_eq_of_text_eq_witness :
    (ImString.from_utf8_with_nul_unchecked ⟨[104, 0], 2⟩).deref
      = (ImString.from_utf8_with_nul_unchecked ⟨[104, 0, 120, 0], 17⟩).deref :=
  (view_eq_of_text_eq
    (ImString.from_utf8_with_nul_unchecked ⟨[104, 0], 2⟩)
    (ImString.from_utf8_with_nul_unchecked ⟨[104, 0, 120, 0], 17⟩)
    (by decide)).1

/-- Claim C8: on every buffer whose allocation can hold its terminator
(`cap ≥ 1`, true of every reachable buffer), `clear` leaves the vector as the
single terminator byte, `as_text` returns the empty string, and both
capacities are unchanged — the terminator push fits in the retained
allocation, so no reallocation occurs. -/
theorem clear_empties_and_keeps_capacity (b : ImString) (h : 1 ≤ b.vec.cap) :
    b.clear.vec.data = [0] ∧ b.clear.to_str = [] ∧
    b.clear.capacity = b.capacity ∧
    b.clear.capacity_with_nul = b.capacity_with_nul := by
  have hv : b.clear.vec = ⟨[0], b.vec.cap⟩ := by
    unfold ImString.clear ByteVec.clear ByteVec.push
    simp [h]
  refine ⟨by rw [hv], ?_, ?_, ?_⟩
  · rw [ImString.to_str_eq_takeWhile, hv]
    rfl
  · unfold ImString.capacity
    rw [hv]
  · unfold ImString.capacity_with_nul
    rw [hv]

/-- Claim C8, witness at the default (empty) buffer. -/
theorem clear_empties_and_keeps_capacity_witness :
    ImString.default.clear.to_str = [] ∧
    ImString.default.clear.capacity = ImString.default.capacity := by
  have h := clear_empties_and_keeps_capacity ImString.default (by decide)
  exact ⟨h.2.1, h.2.2.1⟩

theorem one_le_push_cap (v : ByteVec) (b : Nat) : 1 ≤ (v.push b).cap := by
  unfold ByteVec.push
  split
  · next hc => exact le_trans (Nat.le_add_left 1 v.data.length) hc
  · unfold growTo
    exact le_trans (Nat.le_add_left 1 v.data.length) (le_max_right _ _)

theorem one_le_reserve_cap (v : ByteVec) (n : Nat) (h : 1 ≤ v.cap) :
    1 ≤ (v.reserve n).cap := by
  unfold ByteVec.reserve
  split
  · exact h
  · unfold growTo
    have h2 : 1 ≤ 2 * v.cap := by omega
    exact le_trans h2 (le_max_left _ _)

theorem one_le_reserve_exact_cap (v : ByteVec) (n : Nat) (h : 1 ≤ v.cap) :
    1 ≤ (v.reserve_exact n).cap := by
  unfold ByteVec.reserve_exact
  split
  · exact h
  · next hc =>
      show 1 ≤ v.data.length + n
      omega

theorem Reached.one_le_cap {b : ImString} (h : Reached b) : 1 ≤ b.vec.cap := by
  induction h with
  | new s c => exact one_le_push_cap _ _
  | with_capacity c => exact one_le_push_cap _ _
  | default => exact Nat.le_refl 1
  | clear _ _ => exact one_le_push_cap _ _
  | push_str t _ _ => exact one_le_push_cap _ _
  | push c _ _ => exact one_le_push_cap _ _
  | reserve n _ ih => exact one_le_reserve_cap _ _ ih
  | reserve_exact n _ ih => exact one_le_reserve_exact_cap _ _ ih

/-- Claim C9: on every buffer reachable from a checked constructor by any
sequence of `reserve`, `reserve_exact`, append and `clear` operations,
`capacity_with_nul` equals `capacity + 1` (the allocation always keeps a slot
for the terminator, so the usize subtraction in `capacity` never
underflows). -/
theorem capacity_with_nul_eq_capacity_add_one (b : ImString)
    (h : Reached b) : b.capacity_with_nul = b.capacity + 1 := by
  have h1 := h.one_le_cap
  unfold ImString.capacity_with_nul ImString.capacity
  omega

/-- Claim C9, witness at `ImString::new("")` after a reserve and a clear. -/
theorem capacity_with_nul_witness :
    ((ImString.new [] 0).reserve 5).clear.capacity_with_nul
      = ((ImString.new [] 0).reserve 5).clear.capacity + 1 :=
  capacity_with_nul_eq_capacity_add_one _
    (Reached.clear (Reached.reserve 5 (Reached.new [] 0)))

/-- Claim C10: the derived equality, ordering and hashing on `ImString` all
operate on the entire underlying byte vector — terminator and bytes stored
after the first terminator included: equality holds iff the vectors are
element-wise equal, the lexicographic comparison returns `eq` iff the vectors
are equal, and there are two owned buffers — here `[104, 0]` and the
foreign-truncated `[104, 0, 120, 0]` — whose `as_text` results agree ("h")
yet which compare unequal, order strictly (the bytes after the shared
terminator decide), and feed different byte streams to the hasher. -/
theorem imstring_eq_ord_hash_whole_vector :
    (∀ a b : ImString,
        (ImString.eqDerived a b = true ↔ a.vec.data = b.vec.data) ∧
        (ImString.cmpDerived a b = Ordering.eq ↔ a.vec.data = b.vec.data)) ∧
    ∃ a b : ImString, a.to_str = b.to_str ∧
      ImString.eqDerived a b = false ∧
      ImString.cmpDerived a b = Ordering.lt ∧
      a.hashInput ≠ b.hashInput := by
  refine ⟨fun a b => ⟨by simp [ImString.eqDerived],
    lexCompare_eq_iff a.vec.data b.vec.data⟩, ?_⟩
  exact ⟨⟨⟨[104, 0], 2⟩⟩, ⟨⟨[104, 0, 120, 0], 4⟩⟩, by decide, by decide,
    by decide, by decide⟩
